import Mathlib

/-!
Verification development for the PetLoves markdown-like text-formatting engine
(source: src/utils/textFormatter.tsx).  The two-stage pipeline is embedded
shallowly over `List Char`: the block scanner (`formatText`) and the inline
span resolver (`formatInlineText`).  JavaScript regex behaviour is modelled
deterministically, following the backtracking semantics of each concrete
pattern in the source.
-/

namespace PetLoves

/-- The full JavaScript whitespace class as used by `\s` and `trim()`:
ASCII whitespace, NBSP, Ogham space mark, the U+2000 space range, the line
and paragraph separators, narrow/medium spaces, ideographic space, BOM. -/
def isWs (c : Char) : Bool :=
  c == ' ' || c == '\t' || c == '\n' || c == '\r' || c == '\x0b' || c == '\x0c' ||
    c == '\u00a0' || c == '\u1680' || ('\u2000' ≤ c && c ≤ '\u200a') || c == '\u2028' ||
    c == '\u2029' || c == '\u202f' || c == '\u205f' || c == '\u3000' || c == '\ufeff'

/-- Characters matched by an unflagged JavaScript `.`: anything except the
four LineTerminators (LF, CR, LS, PS). -/
def dotOk (c : Char) : Bool :=
  !(c == '\n' || c == '\r' || c == '\u2028' || c == '\u2029')

/-- Left trim, as the leading half of JavaScript `String.prototype.trim`. -/
def trimL (l : List Char) : List Char := l.dropWhile isWs

/-- Right trim, as the trailing half of JavaScript `String.prototype.trim`. -/
def trimR (l : List Char) : List Char := (l.reverse.dropWhile isWs).reverse

/-- JavaScript `String.prototype.trim`. -/
def jsTrim (l : List Char) : List Char := trimR (trimL l)

/-- `text.split('\n')` from the block scanner. -/
def splitNl : List Char → List (List Char)
  | [] => [[]]
  | c :: rest =>
    if c = '\n' then [] :: splitNl rest
    else
      match splitNl rest with
      | [] => [[c]]
      | g :: gs => (c :: g) :: gs

/-- `lines.join('\n')` used when a code block is flushed. -/
def joinNl : List (List Char) → List Char
  | [] => []
  | [l] => l
  | l :: rest => l ++ '\n' :: joinNl rest

/-- Index of the first occurrence of `c` in `l`, the deterministic core of a
greedy negated character class `[^c]+` followed by the literal `c`. -/
def findCharIdx (c : Char) : List Char → Option Nat
  | [] => none
  | x :: xs => if x = c then some 0 else (findCharIdx c xs).map (fun j => j + 1)

/-- Lazy search `(.*?)` followed by the literal `closer`: length of the
shortest match of `.*?closer` at the head of the input, where `.` excludes
the LineTerminators.  Matches JavaScript non-greedy quantifier semantics. -/
def lazyCloseLen (closer : List Char) : List Char → Option Nat
  | [] => if closer.isEmpty then some 0 else none
  | c :: rest =>
    if closer.isPrefixOf (c :: rest) then some closer.length
    else if dotOk c then (lazyCloseLen closer rest).map (fun m => m + 1)
    else none

def stars3 : List Char := ['*', '*', '*']
def stars2 : List Char := ['*', '*']
def stars1 : List Char := ['*']

/-- Length of a match of `\[([^\]]+)\]\(([^)]+)\)` at the head of the input. -/
def linkMatchLen : List Char → Option Nat
  | [] => none
  | c :: rest =>
    if c = '[' then
      (findCharIdx ']' rest).bind (fun j =>
        if j = 0 then none
        else
          match rest.drop (j + 1) with
          | [] => none
          | c2 :: rest2 =>
            if c2 = '(' then
              (findCharIdx ')' rest2).bind (fun k => if k = 0 then none else some (j + k + 4))
            else none)
    else none

/-- Length of a match of the inline-code pattern at the head of the input
(backtick, one or more non-backticks, backtick). -/
def codeMatchLen : List Char → Option Nat
  | [] => none
  | c :: rest =>
    if c = '`' then
      (findCharIdx '`' rest).bind (fun j => if j = 0 then none else some (j + 2))
    else none

/-- The five inline pattern families, in the order the source scans them:
link, bold-triple, bold-double, italic, inline code. -/
inductive Fam where
  | link
  | boldTriple
  | boldDouble
  | italic
  | code
deriving DecidableEq

/-- Length of a match of family `p` at the head of the input, or `none`. -/
def famMatchLen : Fam → List Char → Option Nat
  | .link, l => linkMatchLen l
  | .boldTriple, l =>
    if stars3.isPrefixOf l then (lazyCloseLen stars3 (l.drop 3)).map (fun m => m + 3) else none
  | .boldDouble, l =>
    if stars2.isPrefixOf l then (lazyCloseLen stars2 (l.drop 2)).map (fun m => m + 2) else none
  | .italic, l =>
    if stars1.isPrefixOf l then (lazyCloseLen stars1 (l.drop 1)).map (fun m => m + 1) else none
  | .code, l => codeMatchLen l

/-- One step of the global `regex.exec` loop: the leftmost match of family
`p` in the suffix `l`, whose first character sits at absolute offset `i`.
Returns absolute `(start, end)`. -/
def nextMatchAux (p : Fam) : List Char → Nat → Option (Nat × Nat)
  | [], _ => none
  | c :: rest, i =>
    match famMatchLen p (c :: rest) with
    | some n => some (i, i + n)
    | none => nextMatchAux p rest (i + 1)

/-- The full `while exec` collection loop for one family.  `fuel` bounds the
iteration count; `collect` supplies `t.length + 1`, which is always enough
because every match is non-empty. -/
def collectAux (p : Fam) : Nat → List Char → Nat → List (Fam × Nat × Nat)
  | 0, _, _ => []
  | fuel + 1, l, i =>
    match nextMatchAux p l i with
    | none => []
    | some (s, e) => (p, s, e) :: collectAux p fuel (l.drop (e - i)) e

/-- All matches of family `p` in `t`, tagged with absolute offsets. -/
def collect (p : Fam) (t : List Char) : List (Fam × Nat × Nat) :=
  collectAux p (t.length + 1) t 0

/-- The pooled match list (`allMatches` in the source), in family scan
order: link, bold-triple, bold-double, italic, code. -/
def allMatches (t : List Char) : List (Fam × Nat × Nat) :=
  collect .link t ++ collect .boldTriple t ++ collect .boldDouble t ++
    collect .italic t ++ collect .code t

/-- Stable insertion used by the stable sort on start offsets. -/
def insertByStart (x : Fam × Nat × Nat) : List (Fam × Nat × Nat) → List (Fam × Nat × Nat)
  | [] => [x]
  | y :: ys => if x.2.1 ≤ y.2.1 then x :: y :: ys else y :: insertByStart x ys

/-- `allMatches.sort((a, b) => a.start - b.start)`: a stable sort by start
offset, matching the (spec-mandated stable) JavaScript array sort. -/
def sortByStart : List (Fam × Nat × Nat) → List (Fam × Nat × Nat)
  | [] => []
  | x :: xs => insertByStart x (sortByStart xs)

/-- The overlap-removal pass: keep a match iff its start is `≥` the end of
the last kept match (`lastEnd` starts at 0). -/
def filterOverlaps : List (Fam × Nat × Nat) → Nat → List (Fam × Nat × Nat)
  | [], _ => []
  | (f, s, e) :: rest, lastEnd =>
    if lastEnd ≤ s then (f, s, e) :: filterOverlaps rest e
    else filterOverlaps rest lastEnd

/-- Rendered inline spans: plain text, link (label, url), bold, italic,
inline code.  Contents are the regex capture groups. -/
inductive InlineSpan where
  | plainText : List Char → InlineSpan
  | linkSpan : List Char → List Char → InlineSpan
  | bold : List Char → InlineSpan
  | italic : List Char → InlineSpan
  | code : List Char → InlineSpan
deriving DecidableEq

/-- A produced span together with its source range `[start, stop)` in the
input string. -/
structure RSpan where
  start : Nat
  stop : Nat
  span : InlineSpan
deriving DecidableEq

/-- `text.slice(a, b)`. -/
def slice (t : List Char) (a b : Nat) : List Char := (t.drop a).take (b - a)

/-- The renderer of a kept match: recomputes the capture groups of family
`f` for the match occupying `[s, e)` of `t`. -/
def renderMatch (t : List Char) (f : Fam) (s e : Nat) : InlineSpan :=
  match f with
  | .link =>
    let j := (findCharIdx ']' (t.drop (s + 1))).getD 0
    InlineSpan.linkSpan (slice t (s + 1) (s + 1 + j)) (slice t (s + 3 + j) (e - 1))
  | .boldTriple => InlineSpan.bold (slice t (s + 3) (e - 3))
  | .boldDouble => InlineSpan.bold (slice t (s + 2) (e - 2))
  | .italic => InlineSpan.italic (slice t (s + 1) (e - 1))
  | .code => InlineSpan.code (slice t (s + 1) (e - 1))

/-- The build loop over the kept matches: a plain-text gap before each match
when non-empty, the rendered match, and a trailing plain-text remainder. -/
def buildParts (t : List Char) : List (Fam × Nat × Nat) → Nat → List RSpan
  | [], ci =>
    if ci < t.length then
      if (slice t ci t.length).isEmpty then []
      else [⟨ci, t.length, InlineSpan.plainText (slice t ci t.length)⟩]
    else []
  | (f, s, e) :: rest, ci =>
    (if ci < s then
      if (slice t ci s).isEmpty then []
      else [⟨ci, s, InlineSpan.plainText (slice t ci s)⟩]
    else []) ++ ⟨s, e, renderMatch t f s e⟩ :: buildParts t rest e

/-- `formatInlineText` from the source: pool, sort, filter overlaps, build
parts; if nothing was produced, emit the whole text as one plain span. -/
def formatInlineText (t : List Char) : List RSpan :=
  if (buildParts t (filterOverlaps (sortByStart (allMatches t)) 0) 0).isEmpty then
    [⟨0, t.length, InlineSpan.plainText t⟩]
  else buildParts t (filterOverlaps (sortByStart (allMatches t)) 0) 0

/-- Block-level nodes produced by the scanner, one per logical line or
fenced group. -/
inductive Block where
  | codeBlock : List Char → Block
  | blank : Block
  | header : Nat → List RSpan → Block
  | blockquote : List RSpan → Block
  | orderedItem : List Char → List RSpan → Block
  | unorderedItem : List RSpan → Block
  | paragraph : List RSpan → Block
deriving DecidableEq

/-- Matching of `\s+(.+)$` against the whole of `l`, with the
greedy-then-backtrack semantics of the source regexes.  `\s+` tries the
maximal whitespace run first and gives characters back until `(.+)$` can
succeed; `(.+)$` succeeds from a position exactly when the remaining suffix
is non-empty and consists only of `.`-matchable characters (no
LineTerminator), since `$` anchors at end of input.  The first (largest)
whitespace length that can succeed is `min(run, |l| - 1)`, and shrinking it
further only grows the suffix, so the match exists exactly when that split
works. -/
def wsPlusRest (l : List Char) : Option (List Char) :=
  if 1 ≤ min (l.takeWhile isWs).length (l.length - 1) ∧
      (l.drop (min (l.takeWhile isWs).length (l.length - 1))).all dotOk then
    some (l.drop (min (l.takeWhile isWs).length (l.length - 1)))
  else none

/-- `line.match(/^(#{1,6})\s+(.+)$/)`: leading `#` count must be between 1
and 6 (seven or more sharps can never match), then required whitespace and
non-empty content. -/
def headerMatch (l : List Char) : Option (Nat × List Char) :=
  if 1 ≤ (l.takeWhile (fun c => c = '#')).length ∧ (l.takeWhile (fun c => c = '#')).length ≤ 6 then
    match wsPlusRest (l.drop (l.takeWhile (fun c => c = '#')).length) with
    | some r => some ((l.takeWhile (fun c => c = '#')).length, r)
    | none => none
  else none

/-- Core of `^\s*(\d+)\. (.+)$` after the leading whitespace has been
dropped: digits, a literal dot, a literal single space, then `(.+)$` — a
non-empty rest made only of `.`-matchable characters, running to the end of
the input. -/
def numberedCore (l : List Char) : Option (List Char × List Char) :=
  if (l.takeWhile Char.isDigit).isEmpty then none
  else
    match l.drop (l.takeWhile Char.isDigit).length with
    | '.' :: ' ' :: r =>
      if r.isEmpty then none
      else if r.all dotOk then some (l.takeWhile Char.isDigit, r) else none
    | _ => none

/-- `line.match(/^\s*(\d+)\. (.+)$/)`. -/
def numberedListMatch (l : List Char) : Option (List Char × List Char) :=
  numberedCore (l.dropWhile isWs)

/-- Core of `^\s*[-*•]\s+(.+)$` after the leading whitespace: a bullet
marker, then required whitespace and non-empty content. -/
def bulletCore : List Char → Option (List Char)
  | [] => none
  | m :: r => if m = '-' || m = '*' || m = '•' then wsPlusRest r else none

/-- `line.match(/^\s*[-*•]\s+(.+)$/)`. -/
def bulletListMatch (l : List Char) : Option (List Char) :=
  bulletCore (l.dropWhile isWs)

def quoteMark : List Char := ['>', ' ']

def fence3 : List Char := ['`', '`', '`']

/-- `line.trim().startsWith('```')`: fence detection applies to the trimmed
line. -/
def isFenceLine (l : List Char) : Bool := fence3.isPrefixOf (jsTrim l)

/-- Classification of one line while the scanner is in the `Normal` state
(the fence test has already failed): blank, header, blockquote, ordered
list, bullet list, else paragraph. -/
def classifyLine (l : List Char) : Block :=
  if (jsTrim l).isEmpty then Block.blank
  else
    match headerMatch l with
    | some (n, r) => Block.header n (formatInlineText r)
    | none =>
      if quoteMark.isPrefixOf (jsTrim l) then
        Block.blockquote (formatInlineText ((jsTrim l).drop 2))
      else
        match numberedListMatch l with
        | some (ds, r) => Block.orderedItem ds (formatInlineText r)
        | none =>
          match bulletListMatch l with
          | some r => Block.unorderedItem (formatInlineText r)
          | none => Block.paragraph (formatInlineText l)

/-- The line loop of `formatText`: the boolean is `inCodeBlock`, the list
accumulator is `codeBlockContent`.  An input ending while still inside a
fence discards the accumulator, exactly as the source does. -/
def scanLines : List (List Char) → Bool → List (List Char) → List Block
  | [], _, _ => []
  | line :: rest, inCode, acc =>
    if isFenceLine line then
      if inCode then Block.codeBlock (joinNl acc) :: scanLines rest false []
      else scanLines rest true []
    else if inCode then scanLines rest true (acc ++ [line])
    else classifyLine line :: scanLines rest inCode acc

/-- `formatText` from the source: falsy (empty) input yields `[]`, else the
input is split into lines and scanned. -/
def formatText (t : List Char) : List Block :=
  if t.isEmpty then [] else scanLines (splitNl t) false []

/-- The nullable entry point: `formatText(null)` and `formatText(undefined)`
take the same `if (!text) return []` early exit. -/
def formatTextNullable : Option (List Char) → List Block
  | none => []
  | some t => formatText t

/-- Contiguity predicate on span ranges: the list tiles `[a, b)` in order,
each span starting where the previous one stopped. -/
def SpanChain (a b : Nat) : List RSpan → Prop
  | [] => a = b
  | sp :: rest => sp.start = a ∧ a ≤ sp.stop ∧ SpanChain sp.stop b rest

/-- Chained, bounded matches: starts `≥ k`, each non-empty, ends `≤ n`,
each match starting at or after the previous end. -/
def MatchChain (k n : Nat) : List (Fam × Nat × Nat) → Prop
  | [] => True
  | (_, s, e) :: rest => k ≤ s ∧ s < e ∧ e ≤ n ∧ MatchChain e n rest

/-- Concatenation of the source-range slices of a span list. -/
def concatSlices (t : List Char) : List RSpan → List Char
  | [] => []
  | sp :: rest => slice t sp.start sp.stop ++ concatSlices t rest

/-! ### Bounds for the inline matchers -/

theorem findCharIdx_lt {c : Char} :
    ∀ {l : List Char} {j : Nat}, findCharIdx c l = some j → j < l.length := by
  intro l
  induction l with
  | nil => intro j h; simp [findCharIdx] at h
  | cons x xs ih =>
    intro j h
    simp only [findCharIdx] at h
    split at h
    · cases h; simp
    · rcases Option.map_eq_some'.mp h with ⟨j2, hj2, hj⟩
      have := ih hj2
      simp only [List.length_cons]
      omega

theorem isPrefixOfLength :
    ∀ {p l : List Char}, p.isPrefixOf l = true → p.length ≤ l.length := by
  intro p
  induction p with
  | nil => intro l _; simp
  | cons a as ih =>
    intro l h
    cases l with
    | nil => simp [List.isPrefixOf] at h
    | cons b bs =>
      simp only [List.isPrefixOf, Bool.and_eq_true] at h
      have := ih h.2
      simp only [List.length_cons]
      omega

theorem lazyCloseLen_bounds {closer : List Char} :
    ∀ {l : List Char} {m : Nat}, lazyCloseLen closer l = some m →
      closer.length ≤ m ∧ m ≤ l.length := by
  intro l
  induction l with
  | nil =>
    intro m h
    simp only [lazyCloseLen] at h
    split at h
    · cases h
      constructor
      · simp_all [List.isEmpty_iff]
      · simp
    · cases h
  | cons c rest ih =>
    intro m h
    simp only [lazyCloseLen] at h
    split at h
    · cases h
      exact ⟨Nat.le_refl _, isPrefixOfLength (by assumption)⟩
    · split at h
      · rcases Option.map_eq_some'.mp h with ⟨m2, hm2, hm⟩
        have := ih hm2
        simp only [List.length_cons]
        omega
      · cases h

theorem linkMatchLen_bounds :
    ∀ {l : List Char} {n : Nat}, linkMatchLen l = some n → 1 ≤ n ∧ n ≤ l.length := by
  intro l n h
  cases l with
  | nil => simp [linkMatchLen] at h
  | cons c rest =>
    simp only [linkMatchLen] at h
    split at h
    · rcases Option.bind_eq_some.mp h with ⟨j, hj, h2⟩
      split at h2
      · cases h2
      · split at h2
        · cases h2
        · next c2 rest2 heq =>
          split at h2
          · rcases Option.bind_eq_some.mp h2 with ⟨k, hk, h3⟩
            split at h3
            · cases h3
            · cases h3
              have b1 := findCharIdx_lt hj
              have b2 := findCharIdx_lt hk
              have b3 := congrArg List.length heq
              simp only [List.length_drop, List.length_cons] at b3 ⊢
              omega
          · cases h2
    · cases h

theorem codeMatchLen_bounds :
    ∀ {l : List Char} {n : Nat}, codeMatchLen l = some n → 1 ≤ n ∧ n ≤ l.length := by
  intro l n h
  cases l with
  | nil => simp [codeMatchLen] at h
  | cons c rest =>
    simp only [codeMatchLen] at h
    split at h
    · rcases Option.bind_eq_some.mp h with ⟨j, hj, h2⟩
      split at h2
      · cases h2
      · cases h2
        have b1 := findCharIdx_lt hj
        simp only [List.length_cons]
        omega
    · cases h

theorem famMatchLen_bounds :
    ∀ (p : Fam) (l : List Char) (n : Nat), famMatchLen p l = some n →
      1 ≤ n ∧ n ≤ l.length := by
  intro p l n h
  cases p with
  | link => exact linkMatchLen_bounds h
  | boldTriple =>
    simp only [famMatchLen] at h
    split at h
    · rcases Option.map_eq_some'.mp h with ⟨m, hm, hn⟩
      have h1 := lazyCloseLen_bounds hm
      have h2 : (3 : Nat) ≤ l.length := by
        have := isPrefixOfLength (p := stars3) (by assumption)
        simpa [stars3] using this
      simp only [stars3, List.length_drop, List.length_cons, List.length_nil] at h1
      omega
    · cases h
  | boldDouble =>
    simp only [famMatchLen] at h
    split at h
    · rcases Option.map_eq_some'.mp h with ⟨m, hm, hn⟩
      have h1 := lazyCloseLen_bounds hm
      have h2 : (2 : Nat) ≤ l.length := by
        have := isPrefixOfLength (p := stars2) (by assumption)
        simpa [stars2] using this
      simp only [stars2, List.length_drop, List.length_cons, List.length_nil] at h1
      omega
    · cases h
  | italic =>
    simp only [famMatchLen] at h
    split at h
    · rcases Option.map_eq_some'.mp h with ⟨m, hm, hn⟩
      have h1 := lazyCloseLen_bounds hm
      have h2 : (1 : Nat) ≤ l.length := by
        have := isPrefixOfLength (p := stars1) (by assumption)
        simpa [stars1] using this
      simp only [stars1, List.length_drop, List.length_cons, List.length_nil] at h1
      omega
    · cases h
  | code => exact codeMatchLen_bounds h

theorem nextMatchAux_sound {p : Fam} :
    ∀ {l : List Char} {i s e : Nat}, nextMatchAux p l i = some (s, e) →
      i ≤ s ∧ s < e ∧ e ≤ i + l.length := by
  intro l
  induction l with
  | nil => intro i s e h; simp [nextMatchAux] at h
  | cons c rest ih =>
    intro i s e h
    simp only [nextMatchAux] at h
    split at h
    · next n hn =>
      cases h
      have := famMatchLen_bounds p (c :: rest) n hn
      simp only [List.length_cons] at this ⊢
      omega
    · have := ih h
      simp only [List.length_cons]
      omega

theorem collectAux_bounds {p : Fam} {t : List Char} :
    ∀ (fuel i : Nat), i ≤ t.length →
      ∀ x ∈ collectAux p fuel (t.drop i) i,
        i ≤ x.2.1 ∧ x.2.1 < x.2.2 ∧ x.2.2 ≤ t.length := by
  intro fuel
  induction fuel with
  | zero => intro i _ x hx; simp [collectAux] at hx
  | succ fuel ih =>
    intro i hi x hx
    simp only [collectAux] at hx
    split at hx
    · simp at hx
    · next s e hse =>
      have hs := nextMatchAux_sound hse
      rw [List.length_drop] at hs
      rcases List.mem_cons.mp hx with rfl | hx2
      · exact ⟨hs.1, hs.2.1, show e ≤ t.length by omega⟩
      · have hdd : (t.drop i).drop (e - i) = t.drop e := by
          rw [List.drop_drop]; congr 1; omega
        rw [hdd] at hx2
        have := ih e (by omega) x hx2
        exact ⟨by omega, this.2.1, this.2.2⟩

theorem collect_bounds {p : Fam} {t : List Char} :
    ∀ x ∈ collect p t, x.2.1 < x.2.2 ∧ x.2.2 ≤ t.length := by
  intro x hx
  have := collectAux_bounds (p := p) (t := t) (t.length + 1) 0 (Nat.zero_le _) x
    (by rw [List.drop_zero]; exact hx)
  exact ⟨this.2.1, this.2.2⟩

theorem allMatches_bounds (t : List Char) :
    ∀ x ∈ allMatches t, x.2.1 < x.2.2 ∧ x.2.2 ≤ t.length := by
  intro x hx
  simp only [allMatches, List.mem_append] at hx
  rcases hx with (((hx | hx) | hx) | hx) | hx <;> exact collect_bounds x hx

theorem mem_insertByStart {x y : Fam × Nat × Nat} :
    ∀ {l : List (Fam × Nat × Nat)}, x ∈ insertByStart y l → x = y ∨ x ∈ l := by
  intro l
  induction l with
  | nil => intro h; simp [insertByStart] at h; exact Or.inl h
  | cons z zs ih =>
    intro h
    simp only [insertByStart] at h
    split at h
    · rcases List.mem_cons.mp h with rfl | h2
      · exact Or.inl rfl
      · exact Or.inr h2
    · rcases List.mem_cons.mp h with rfl | h2
      · exact Or.inr (List.mem_cons_self _ _)
      · rcases ih h2 with h3 | h3
        · exact Or.inl h3
        · exact Or.inr (List.mem_cons_of_mem _ h3)

theorem mem_sortByStart {x : Fam × Nat × Nat} :
    ∀ {l : List (Fam × Nat × Nat)}, x ∈ sortByStart l → x ∈ l := by
  intro l
  induction l with
  | nil => intro h; simp [sortByStart] at h
  | cons z zs ih =>
    intro h
    simp only [sortByStart] at h
    rcases mem_insertByStart h with rfl | h2
    · exact List.mem_cons_self _ _
    · exact List.mem_cons_of_mem _ (ih h2)

theorem filterOverlaps_chain {n : Nat} :
    ∀ (l : List (Fam × Nat × Nat)), (∀ x ∈ l, x.2.1 < x.2.2 ∧ x.2.2 ≤ n) →
      ∀ k, MatchChain k n (filterOverlaps l k) := by
  intro l
  induction l with
  | nil => intro _ k; simp [filterOverlaps, MatchChain]
  | cons x rest ih =>
    intro hb k
    obtain ⟨f, s, e⟩ := x
    simp only [filterOverlaps]
    split
    · next hk =>
      have hx := hb (f, s, e) (List.mem_cons_self _ _)
      exact ⟨hk, hx.1, hx.2, ih (fun y hy => hb y (List.mem_cons_of_mem _ hy)) e⟩
    · exact ih (fun y hy => hb y (List.mem_cons_of_mem _ hy)) k

/-! ### Slice and chain lemmas -/

theorem slice_append {t : List Char} {a m b : Nat} (h1 : a ≤ m) (h2 : m ≤ b) :
    slice t a m ++ slice t m b = slice t a b := by
  unfold slice
  have hd : t.drop m = (t.drop a).drop (m - a) := by
    rw [List.drop_drop]; congr 1; omega
  rw [hd, ← List.take_add]
  congr 1
  omega

theorem slice_full (t : List Char) : slice t 0 t.length = t := by
  simp [slice]

theorem slice_isEmpty_false {t : List Char} {a b : Nat} (h1 : a < b) (h2 : a < t.length) :
    (slice t a b).isEmpty = false := by
  have hlen : (slice t a b).length ≠ 0 := by
    simp only [slice, List.length_take, List.length_drop]
    omega
  rw [List.isEmpty_eq_false]
  intro hc
  rw [hc] at hlen
  simp at hlen

theorem spanChain_le :
    ∀ (l : List RSpan) {a b : Nat}, SpanChain a b l → a ≤ b := by
  intro l
  induction l with
  | nil => intro a b h; simp only [SpanChain] at h; omega
  | cons sp rest ih =>
    intro a b h
    simp only [SpanChain] at h
    obtain ⟨_, h2, h3⟩ := h
    exact Nat.le_trans h2 (ih h3)

theorem spanChain_concat {t : List Char} :
    ∀ (l : List RSpan) {a b : Nat}, SpanChain a b l → concatSlices t l = slice t a b := by
  intro l
  induction l with
  | nil =>
    intro a b h
    simp only [SpanChain] at h
    subst h
    simp [concatSlices, slice, Nat.sub_self]
  | cons sp rest ih =>
    intro a b h
    simp only [SpanChain] at h
    obtain ⟨h1, h2, h3⟩ := h
    simp only [concatSlices]
    rw [ih h3, h1]
    exact slice_append h2 (spanChain_le rest h3)

theorem buildParts_chain {t : List Char} :
    ∀ (vm : List (Fam × Nat × Nat)) (ci : Nat),
      MatchChain ci t.length vm → ci ≤ t.length →
        SpanChain ci t.length (buildParts t vm ci) := by
  intro vm
  induction vm with
  | nil =>
    intro ci _ hci
    simp only [buildParts]
    split
    · next hlt =>
      rw [slice_isEmpty_false hlt hlt]
      simp only [Bool.false_eq_true, if_false]
      exact ⟨rfl, Nat.le_of_lt hlt, rfl⟩
    · next hge =>
      have : ci = t.length := by omega
      simpa [SpanChain] using this
  | cons x rest ih =>
    intro ci hm hci
    obtain ⟨f, s, e⟩ := x
    simp only [MatchChain] at hm
    obtain ⟨h1, h2, h3, h4⟩ := hm
    simp only [buildParts]
    by_cases hlt : ci < s
    · rw [if_pos hlt, slice_isEmpty_false hlt (by omega)]
      simp only [Bool.false_eq_true, if_false, List.cons_append, List.nil_append]
      exact ⟨rfl, Nat.le_of_lt hlt, rfl, Nat.le_of_lt h2, ih e h4 (by omega)⟩
    · rw [if_neg hlt]
      simp only [List.nil_append]
      exact ⟨show s = ci by omega, show ci ≤ e by omega, ih e h4 (by omega)⟩

theorem formatInlineText_ne_nil (t : List Char) : formatInlineText t ≠ [] := by
  unfold formatInlineText
  split
  · simp
  · next h => simpa using h

theorem collectAux_start_lb {p : Fam} :
    ∀ (fuel : Nat) (l : List Char) (i : Nat), ∀ x ∈ collectAux p fuel l i, i ≤ x.2.1 := by
  intro fuel
  induction fuel with
  | zero => intro l i x hx; simp [collectAux] at hx
  | succ fuel ih =>
    intro l i x hx
    simp only [collectAux] at hx
    split at hx
    · simp at hx
    · next s e hse =>
      have hs := nextMatchAux_sound hse
      rcases List.mem_cons.mp hx with rfl | hx2
      · exact hs.1
      · have := ih _ e x hx2
        omega

theorem collectAux_pairwise {p : Fam} :
    ∀ (fuel : Nat) (l : List Char) (i : Nat),
      List.Pairwise (fun a b => a.2.1 < b.2.1) (collectAux p fuel l i) := by
  intro fuel
  induction fuel with
  | zero => intro l i; simp [collectAux]
  | succ fuel ih =>
    intro l i
    simp only [collectAux]
    split
    · exact List.Pairwise.nil
    · next s e hse =>
      have hs := nextMatchAux_sound hse
      refine List.Pairwise.cons ?_ (ih _ e)
      intro y hy
      have := collectAux_start_lb fuel _ e y hy
      show s < y.2.1
      omega

/-! ### Concrete inputs from the spec's testable properties -/

def exUnterminated : List Char :=
  ['H', 'e', 'l', 'l', 'o', ' ', '*', '*', 'w', 'o', 'r', 'l', 'd']

def exTripleStars : List Char := ['*', '*', '*', 'x', '*', '*', '*']

def exBoldItalic : List Char := ['*', '*', 'a', '*', '*', ' ', '*', 'b', '*']

/-! ### Claim theorems -/

/-- Claim C1: partition/coverage law.  For every input string, the source
ranges of the spans produced by the inline resolver are contiguous,
non-overlapping and ascending (they chain from offset 0 to the length of
the input), and the concatenation of the range slices reconstructs the
input exactly, no character skipped or repeated. -/
theorem c1_inline_partition (t : List Char) :
    SpanChain 0 t.length (formatInlineText t) ∧
      concatSlices t (formatInlineText t) = t := by
  have hb : ∀ x ∈ sortByStart (allMatches t), x.2.1 < x.2.2 ∧ x.2.2 ≤ t.length :=
    fun x hx => allMatches_bounds t x (mem_sortByStart hx)
  have hm : MatchChain 0 t.length (filterOverlaps (sortByStart (allMatches t)) 0) :=
    filterOverlaps_chain _ hb 0
  have hch := buildParts_chain (t := t) _ 0 hm (Nat.zero_le _)
  unfold formatInlineText
  split
  · refine ⟨⟨rfl, Nat.zero_le _, rfl⟩, ?_⟩
    simp only [concatSlices, List.append_nil]
    exact slice_full t
  · exact ⟨hch, by rw [spanChain_concat _ hch, slice_full]⟩

/-- Claim C2, counterexample: the input `Hello **world` does NOT resolve to a
single PlainText span equal to the full line — the bare `**` is matched by
the italic pattern. -/
theorem c2_counterexample :
    formatInlineText exUnterminated ≠
      [⟨0, 13, InlineSpan.plainText exUnterminated⟩] := by decide

/-- Claim C2, amended: the inline resolver is total (it always produces at
least one span, never failing on malformed input), but an unterminated `**`
is itself matched by the italic pattern as an empty-content Italic span, so
`Hello **world` resolves to PlainText `Hello `, an empty Italic span for
the `**`, and PlainText `world` — not to a single PlainText span. -/
theorem c2_amended :
    (∀ t : List Char, 1 ≤ (formatInlineText t).length) ∧
      formatInlineText exUnterminated =
        [⟨0, 6, InlineSpan.plainText ['H', 'e', 'l', 'l', 'o', ' ']⟩,
         ⟨6, 8, InlineSpan.italic []⟩,
         ⟨8, 13, InlineSpan.plainText ['w', 'o', 'r', 'l', 'd']⟩] :=
  ⟨fun t => List.length_pos.mpr (formatInlineText_ne_nil t), by decide⟩

/-- Claim C3: priority/non-overlap resolution.  `***x***` resolves to exactly
one Bold span from the triple-asterisk family covering the whole token
(range `[0, 7)`, inner text `x`), and `**a** *b*` resolves to exactly three
spans: Bold `a`, a PlainText gap, and Italic `b`. -/
theorem c3_priority :
    formatInlineText exTripleStars = [⟨0, 7, InlineSpan.bold ['x']⟩] ∧
      formatInlineText exBoldItalic =
        [⟨0, 5, InlineSpan.bold ['a']⟩,
         ⟨5, 6, InlineSpan.plainText [' ']⟩,
         ⟨6, 9, InlineSpan.italic ['b']⟩] := by decide

/-- Claim C4, counterexample: pooled matches do NOT always have distinct
start offsets.  On `***x***` the bold-triple, bold-double and italic
families all produce a match starting at offset 0, so the pooled start
offsets are not pairwise distinct. -/
theorem c4_counterexample :
    ¬ ((allMatches exTripleStars).map (fun m => m.2.1)).Nodup := by decide

/-- Claim C4, amended: within any single pattern family the collected
occurrences have strictly increasing (hence pairwise distinct) start
offsets; across different families, occurrences may share a start offset. -/
theorem c4_amended (p : Fam) (t : List Char) :
    List.Pairwise (fun a b => a.2.1 < b.2.1) (collect p t) :=
  collectAux_pairwise _ _ _

/-- Claim C9: termination.  Every inline pattern family can only match a
non-empty substring (so the per-family `exec` collection loop strictly
advances the scan position on every iteration), and the block scanner makes
one bounded pass, emitting at most one block per input line. -/
theorem c9_termination :
    (∀ (p : Fam) (l : List Char) (n : Nat),
        famMatchLen p l = some n → 1 ≤ n ∧ n ≤ l.length) ∧
    (∀ (p : Fam) (l : List Char) (i s e : Nat),
        nextMatchAux p l i = some (s, e) → i < e) ∧
    (∀ (lines : List (List Char)) (inCode : Bool) (acc : List (List Char)),
        (scanLines lines inCode acc).length ≤ lines.length) := by
  refine ⟨famMatchLen_bounds, ?_, ?_⟩
  · intro p l i s e h
    have := nextMatchAux_sound h
    omega
  · intro lines
    induction lines with
    | nil => intro inCode acc; simp [scanLines]
    | cons line rest ih =>
      intro inCode acc
      simp only [scanLines]
      split
      · split
        · simp only [List.length_cons]
          exact Nat.succ_le_succ (ih _ _)
        · simp only [List.length_cons]
          exact Nat.le_succ_of_le (ih _ _)
      · split
        · simp only [List.length_cons]
          exact Nat.le_succ_of_le (ih _ _)
        · simp only [List.length_cons]
          exact Nat.succ_le_succ (ih _ _)

/-- Witness for C9 at concrete inputs: the italic family matches `**` with
length 2, and the collection step from position 0 advances to 2. -/
theorem c9_termination_witness :
    (1 ≤ 2 ∧ 2 ≤ (['*', '*'] : List Char).length) ∧ 0 < 2 :=
  ⟨c9_termination.1 .italic ['*', '*'] 2 (by decide),
   c9_termination.2.1 .italic ['*', '*'] 0 0 2 (by decide)⟩

def exNotBold : List Char := ['*', '*', 'n', 'o', 't', ' ', 'b', 'o', 'l', 'd', '*', '*']

def exFencedBlock : List Char := fence3 ++ '\n' :: (exNotBold ++ '\n' :: fence3)

def exHeaderThenOpenFence : List Char :=
  ['#', ' ', 'T'] ++ '\n' :: (fence3 ++ '\n' :: (['f', 'o', 'o'] ++ '\n' :: ['b', 'a', 'r']))

/-- Claim C5: fence isolation.  While the scanner is inside a fence, every
non-fence line is appended verbatim to the code-block accumulator — no
classification and no inline resolution is applied to it; concretely,
`**not bold**` inside a fenced block appears verbatim in the CodeBlock
content with no Bold span. -/
theorem c5_fence_isolation :
    (∀ (line : List Char) (rest acc : List (List Char)), isFenceLine line = false →
        scanLines (line :: rest) true acc = scanLines rest true (acc ++ [line])) ∧
      formatText exFencedBlock = [Block.codeBlock exNotBold] := by
  constructor
  · intro line rest acc h
    simp [scanLines, h]
  · decide

/-- Witness for C5: the in-fence step on the concrete line `**not bold**`. -/
theorem c5_fence_isolation_witness :
    scanLines [exNotBold] true [] = scanLines [] true ([] ++ [exNotBold]) :=
  c5_fence_isolation.1 exNotBold [] [] (by decide)

/-- Claim C6: an input ending while still inside a fence silently drops the
open block: once the scanner is in the fence state and no further fence
line occurs, no block at all is emitted for the remaining lines; concretely
a header followed by an unterminated fence yields only the header. -/
theorem c6_unterminated_fence :
    (∀ (lines acc : List (List Char)),
        (∀ l ∈ lines, isFenceLine l = false) → scanLines lines true acc = []) ∧
      formatText exHeaderThenOpenFence = [Block.header 1 (formatInlineText ['T'])] := by
  constructor
  · intro lines
    induction lines with
    | nil => intro acc _; simp [scanLines]
    | cons line rest ih =>
      intro acc h
      have h1 : isFenceLine line = false := h line (List.mem_cons_self _ _)
      simp only [scanLines, h1, Bool.false_eq_true, if_false, if_pos]
      exact ih (acc ++ [line]) (fun l hl => h l (List.mem_cons_of_mem _ hl))
  · decide

/-- Witness for C6: the in-fence suffix `foo` produces no block. -/
theorem c6_unterminated_fence_witness :
    scanLines [['f', 'o', 'o']] true [] = [] :=
  c6_unterminated_fence.1 [['f', 'o', 'o']] [] (by decide)

/-- Claim C8: empty input.  The empty string and a null/undefined input both
yield an empty block sequence (the functions are total, so no error can be
raised). -/
theorem c8_empty_input : formatText [] = [] ∧ formatTextNullable none = [] :=
  ⟨rfl, rfl⟩

/-! ### Whitespace and trim lemmas for the block classifiers -/

theorem takeWhile_ws_append :
    ∀ (w : List Char), (∀ c ∈ w, isWs c = true) → ∀ (l : List Char),
      (w ++ l).takeWhile isWs = w ++ l.takeWhile isWs := by
  intro w
  induction w with
  | nil => intro _ l; simp
  | cons c w' ih =>
    intro hw l
    have hc : isWs c = true := hw c (List.mem_cons_self _ _)
    simp only [List.cons_append, List.takeWhile_cons_of_pos hc]
    rw [ih (fun x hx => hw x (List.mem_cons_of_mem _ hx)) l]

theorem dropWhile_ws_append :
    ∀ (w : List Char), (∀ c ∈ w, isWs c = true) → ∀ (l : List Char),
      (w ++ l).dropWhile isWs = l.dropWhile isWs := by
  intro w
  induction w with
  | nil => intro _ l; simp
  | cons c w' ih =>
    intro hw l
    have hc : isWs c = true := hw c (List.mem_cons_self _ _)
    simp only [List.cons_append, List.dropWhile_cons_of_pos hc]
    exact ih (fun x hx => hw x (List.mem_cons_of_mem _ hx)) l

theorem jsTrim_ws_append (w : List Char) (hw : ∀ c ∈ w, isWs c = true) (l : List Char) :
    jsTrim (w ++ l) = jsTrim l := by
  unfold jsTrim trimL
  rw [dropWhile_ws_append w hw l]

theorem trimR_cons {a : Char} (ha : isWs a = false) (l : List Char) :
    trimR (a :: l) = a :: trimR l := by
  unfold trimR
  rw [List.reverse_cons, List.dropWhile_append]
  split
  · next h =>
    have h2 : l.reverse.dropWhile isWs = [] := by simpa using h
    rw [h2]
    simp [List.dropWhile_cons, ha]
  · next h =>
    simp

theorem jsTrim_cons_nonWs {a : Char} (ha : isWs a = false) (l : List Char) :
    jsTrim (a :: l) = a :: trimR l := by
  unfold jsTrim trimL
  rw [List.dropWhile_cons_of_neg (by simp [ha])]
  exact trimR_cons ha l

theorem wsPlusRest_single {c : Char} (hc : isWs c = false) (hd : dotOk c = true)
    {cs : List Char} (hcs : cs.all dotOk = true) :
    wsPlusRest (' ' :: c :: cs) = some (c :: cs) := by
  unfold wsPlusRest
  have h1 : (' ' :: c :: cs).takeWhile isWs = [' '] := by
    rw [List.takeWhile_cons_of_pos (by decide), List.takeWhile_cons_of_neg (by simp [hc])]
  rw [h1]
  have h2 : min ([' '] : List Char).length ((' ' :: c :: cs).length - 1) = 1 := by
    simp only [List.length_cons, List.length_nil]
    omega
  rw [h2]
  have h3 : ((' ' :: c :: cs).drop 1).all dotOk = true := by
    simp only [List.drop_succ_cons, List.drop_zero, List.all_cons, hd, Bool.true_and]
    exact hcs
  rw [if_pos ⟨Nat.le_refl 1, h3⟩]
  rfl

theorem takeWhile_hash_append :
    ∀ (n : Nat) (l : List Char),
      (List.replicate n '#' ++ l).takeWhile (fun x => x = '#') =
        List.replicate n '#' ++ l.takeWhile (fun x => x = '#') := by
  intro n
  induction n with
  | zero => intro l; simp
  | succ n ih =>
    intro l
    simp only [List.replicate_succ, List.cons_append]
    rw [List.takeWhile_cons_of_pos (by decide), ih l]

theorem headerMatch_of_sharps {n : Nat} (h1 : 1 ≤ n) (h2 : n ≤ 6) {c : Char}
    (hc : isWs c = false) (hd : dotOk c = true) {cs : List Char}
    (hcs : cs.all dotOk = true) :
    headerMatch (List.replicate n '#' ++ ' ' :: c :: cs) = some (n, c :: cs) := by
  unfold headerMatch
  have ht : (List.replicate n '#' ++ ' ' :: c :: cs).takeWhile (fun x => x = '#') =
      List.replicate n '#' := by
    rw [takeWhile_hash_append, List.takeWhile_cons_of_neg (by decide)]
    simp
  rw [ht, List.length_replicate, if_pos ⟨h1, h2⟩, List.drop_left' (List.length_replicate _ _),
    wsPlusRest_single hc hd hcs]

theorem jsTrim_sharps_ne {n : Nat} (h1 : 1 ≤ n) (l : List Char) :
    (jsTrim (List.replicate n '#' ++ l)).isEmpty = false := by
  obtain ⟨m, rfl⟩ : ∃ m, n = m + 1 := ⟨n - 1, by omega⟩
  rw [List.replicate_succ, List.cons_append, jsTrim_cons_nonWs (by decide)]
  simp

theorem headerMatch_ws_cons {c : Char} (hc : isWs c = true) (l : List Char) :
    headerMatch (c :: l) = none := by
  have hch : ¬ (c = '#') := fun h => by rw [h] at hc; exact absurd hc (by decide)
  unfold headerMatch
  rw [List.takeWhile_cons_of_neg (by simpa using hch)]
  simp

theorem numberedListMatch_ws_append (w : List Char) (hw : ∀ c ∈ w, isWs c = true)
    (l : List Char) : numberedListMatch (w ++ l) = numberedListMatch l := by
  unfold numberedListMatch
  rw [dropWhile_ws_append w hw l]

theorem bulletListMatch_ws_append (w : List Char) (hw : ∀ c ∈ w, isWs c = true)
    (l : List Char) : bulletListMatch (w ++ l) = bulletListMatch l := by
  unfold bulletListMatch
  rw [dropWhile_ws_append w hw l]

theorem isFenceLine_ws_append (w : List Char) (hw : ∀ c ∈ w, isWs c = true)
    (l : List Char) : isFenceLine (w ++ l) = isFenceLine l := by
  unfold isFenceLine
  rw [jsTrim_ws_append w hw l]

theorem classify_header {n : Nat} (h1 : 1 ≤ n) (h2 : n ≤ 6) {c : Char}
    (hc : isWs c = false) (hd : dotOk c = true) {cs : List Char}
    (hcs : cs.all dotOk = true) :
    classifyLine (List.replicate n '#' ++ ' ' :: c :: cs) =
      Block.header n (formatInlineText (c :: cs)) := by
  unfold classifyLine
  rw [jsTrim_sharps_ne h1 _, headerMatch_of_sharps h1 h2 hc hd hcs]
  simp

theorem classify_sharps_overflow {k : Nat} (hk : 7 ≤ k) (rest : List Char) :
    classifyLine (List.replicate k '#' ++ rest) =
      Block.paragraph (formatInlineText (List.replicate k '#' ++ rest)) := by
  obtain ⟨m, rfl⟩ : ∃ m, k = m + 7 := ⟨k - 7, by omega⟩
  unfold classifyLine
  rw [jsTrim_sharps_ne (by omega) rest]
  have hH : headerMatch (List.replicate (m + 7) '#' ++ rest) = none := by
    unfold headerMatch
    rw [takeWhile_hash_append]
    rw [if_neg (by simp only [List.length_append, List.length_replicate]; omega)]
  rw [hH]
  have hq : quoteMark.isPrefixOf (jsTrim (List.replicate (m + 7) '#' ++ rest)) = false := by
    rw [show m + 7 = m + 6 + 1 from by omega, List.replicate_succ, List.cons_append,
      jsTrim_cons_nonWs (by decide)]
    rfl
  rw [hq]
  have hN : numberedListMatch (List.replicate (m + 7) '#' ++ rest) = none := by
    rw [show m + 7 = m + 6 + 1 from by omega, List.replicate_succ, List.cons_append]
    rfl
  rw [hN]
  have hB : bulletListMatch (List.replicate (m + 7) '#' ++ rest) = none := by
    rw [show m + 7 = m + 6 + 1 from by omega, List.replicate_succ, List.cons_append]
    rfl
  rw [hB]
  simp

/-- Claim C7: header classification boundary.  A line of `n` leading sharps
(1 ≤ n ≤ 6), required whitespace, and non-empty content — content headed by
a non-whitespace character and made of characters the anchored `(.+)$` can
match, i.e. no LineTerminator — is a Header whose level equals exactly `n`;
a line beginning with seven or more consecutive sharps is never a header
and falls through to paragraph classification. -/
theorem c7_header_boundary :
    (∀ (n : Nat) (c : Char) (cs : List Char), 1 ≤ n → n ≤ 6 → isWs c = false →
        dotOk c = true → cs.all dotOk = true →
        classifyLine (List.replicate n '#' ++ ' ' :: c :: cs) =
          Block.header n (formatInlineText (c :: cs))) ∧
    (∀ (k : Nat) (rest : List Char), 7 ≤ k →
        classifyLine (List.replicate k '#' ++ rest) =
          Block.paragraph (formatInlineText (List.replicate k '#' ++ rest))) :=
  ⟨fun _ _ _ h1 h2 hc hd hcs => classify_header h1 h2 hc hd hcs,
   fun _ rest hk => classify_sharps_overflow hk rest⟩

/-- Witness for C7: `### x` is a level-3 header; `####### x` (seven sharps)
is a paragraph. -/
theorem c7_header_boundary_witness :
    classifyLine (List.replicate 3 '#' ++ ' ' :: 'x' :: []) =
        Block.header 3 (formatInlineText ('x' :: [])) ∧
      classifyLine (List.replicate 7 '#' ++ [' ', 'x']) =
        Block.paragraph (formatInlineText (List.replicate 7 '#' ++ [' ', 'x'])) :=
  ⟨c7_header_boundary.1 3 'x' [] (by decide) (by decide) (by decide) (by decide) (by decide),
   c7_header_boundary.2 7 [' ', 'x'] (by decide)⟩

theorem classify_ws_append (w l : List Char) (hw : ∀ c ∈ w, isWs c = true)
    (hne : w ≠ []) (hnb : (jsTrim l).isEmpty = false) :
    classifyLine (w ++ l) =
      if quoteMark.isPrefixOf (jsTrim l) then
        Block.blockquote (formatInlineText ((jsTrim l).drop 2))
      else
        match numberedListMatch l with
        | some (ds, r) => Block.orderedItem ds (formatInlineText r)
        | none =>
          match bulletListMatch l with
          | some r => Block.unorderedItem (formatInlineText r)
          | none => Block.paragraph (formatInlineText (w ++ l)) := by
  obtain ⟨c, w', rfl⟩ : ∃ c w', w = c :: w' := by
    cases w with
    | nil => exact absurd rfl hne
    | cons c w' => exact ⟨c, w', rfl⟩
  unfold classifyLine
  rw [jsTrim_ws_append _ hw, hnb, numberedListMatch_ws_append _ hw, bulletListMatch_ws_append _ hw,
    List.cons_append, headerMatch_ws_cons (hw c (List.mem_cons_self _ _))]
  rfl

/-- Claim C10: leading-whitespace sensitivity of block classification.
With any non-empty all-whitespace leading run, ordered-list, unordered-list
and blockquote lines are still recognized and indented fences still toggle,
but an indented header line is classified as a paragraph. -/
theorem c10_leading_whitespace (w : List Char) (hw : ∀ c ∈ w, isWs c = true)
    (hne : w ≠ []) :
    classifyLine (w ++ ['1', '.', ' ', 'x']) =
        Block.orderedItem ['1'] (formatInlineText ['x']) ∧
      classifyLine (w ++ ['-', ' ', 'x']) =
        Block.unorderedItem (formatInlineText ['x']) ∧
      classifyLine (w ++ ['>', ' ', 'q']) =
        Block.blockquote (formatInlineText ['q']) ∧
      isFenceLine (w ++ fence3) = true ∧
      classifyLine (w ++ ['#', ' ', 'h']) =
        Block.paragraph (formatInlineText (w ++ ['#', ' ', 'h'])) := by
  refine ⟨?_, ?_, ?_, ?_, ?_⟩
  · rw [classify_ws_append _ _ hw hne (by decide)]
    rfl
  · rw [classify_ws_append _ _ hw hne (by decide)]
    rfl
  · rw [classify_ws_append _ _ hw hne (by decide)]
    rfl
  · rw [isFenceLine_ws_append _ hw _]
    decide
  · rw [classify_ws_append _ _ hw hne (by decide)]
    rfl

/-- Witness for C10 with a single-space leading run. -/
theorem c10_leading_whitespace_witness :
    classifyLine ([' '] ++ ['1', '.', ' ', 'x']) =
        Block.orderedItem ['1'] (formatInlineText ['x']) ∧
      classifyLine ([' '] ++ ['#', ' ', 'h']) =
        Block.paragraph (formatInlineText ([' '] ++ ['#', ' ', 'h'])) :=
  ⟨(c10_leading_whitespace [' '] (by decide) (by decide)).1,
   (c10_leading_whitespace [' '] (by decide) (by decide)).2.2.2.2⟩

end PetLoves
